import Mathlib

/-!
Verification development for the WeebCentral manga downloader's download
orchestration and conversion pipeline.

The downloader core (chapter selector, checkpoint store, page fetcher,
chapter worker, download orchestrator, conversion pipeline) is shallowly
embedded below.  Chapter numbers are decimals (to support sub-numbering
such as `5.5`); they are represented by the canonical pair type `Dec`
(mantissa and scale, value `mant / 10 ^ scale`, trailing-zero free) so
that propositional equality coincides with value equality and every
operation is executable.
-/

/-- Decimal chapter number: value `mant / 10 ^ scale`.  The `canon`
invariant (no trailing zero in the fractional representation) makes the
representation of each value unique, so `=` on `Dec` is value equality. -/
structure Dec where
  mant : Nat
  scale : Nat
  canon : scale ≠ 0 → mant % 10 ≠ 0

instance : DecidableEq Dec := fun a b =>
  if h : a.mant = b.mant ∧ a.scale = b.scale then
    .isTrue (by cases a; cases b; cases h.1; cases h.2; rfl)
  else
    .isFalse (fun e => h (by cases e; exact ⟨rfl, rfl⟩))

/-- Ordering of chapter numbers is by decimal value (cross-multiplied). -/
protected def Dec.le (a b : Dec) : Prop :=
  a.mant * 10 ^ b.scale ≤ b.mant * 10 ^ a.scale

/-- Strict ordering of chapter numbers by decimal value. -/
protected def Dec.lt (a b : Dec) : Prop :=
  a.mant * 10 ^ b.scale < b.mant * 10 ^ a.scale

instance : LE Dec := ⟨Dec.le⟩

instance : LT Dec := ⟨Dec.lt⟩

instance Dec.decLe : @DecidableRel Dec (· ≤ ·) :=
  fun a b => inferInstanceAs (Decidable (a.mant * 10 ^ b.scale ≤ b.mant * 10 ^ a.scale))

instance Dec.decLt : @DecidableRel Dec (· < ·) :=
  fun a b => inferInstanceAs (Decidable (a.mant * 10 ^ b.scale < b.mant * 10 ^ a.scale))

theorem Dec.le_def {a b : Dec} :
    a ≤ b ↔ a.mant * 10 ^ b.scale ≤ b.mant * 10 ^ a.scale := Iff.rfl

theorem Dec.lt_def {a b : Dec} :
    a < b ↔ a.mant * 10 ^ b.scale < b.mant * 10 ^ a.scale := Iff.rfl

theorem Dec.le_refl (a : Dec) : a ≤ a := Nat.le_refl _

theorem Dec.le_total (a b : Dec) : a ≤ b ∨ b ≤ a := Nat.le_total _ _

theorem Dec.le_of_lt {a b : Dec} (h : a < b) : a ≤ b := Nat.le_of_lt h

theorem Dec.lt_irrefl (a : Dec) : ¬ a < a := Nat.lt_irrefl _

theorem Dec.le_trans {a b c : Dec} (h1 : a ≤ b) (h2 : b ≤ c) : a ≤ c := by
  rw [Dec.le_def] at h1 h2 ⊢
  have hb : 0 < 10 ^ b.scale := Nat.pos_pow_of_pos _ (by decide)
  have h1' : a.mant * 10 ^ b.scale * 10 ^ c.scale ≤
      b.mant * 10 ^ a.scale * 10 ^ c.scale := Nat.mul_le_mul_right _ h1
  have h2' : b.mant * 10 ^ c.scale * 10 ^ a.scale ≤
      c.mant * 10 ^ b.scale * 10 ^ a.scale := Nat.mul_le_mul_right _ h2
  have key : a.mant * 10 ^ c.scale * 10 ^ b.scale ≤
      c.mant * 10 ^ a.scale * 10 ^ b.scale := by
    calc a.mant * 10 ^ c.scale * 10 ^ b.scale
        = a.mant * 10 ^ b.scale * 10 ^ c.scale := by ring
      _ ≤ b.mant * 10 ^ a.scale * 10 ^ c.scale := h1'
      _ = b.mant * 10 ^ c.scale * 10 ^ a.scale := by ring
      _ ≤ c.mant * 10 ^ b.scale * 10 ^ a.scale := h2'
      _ = c.mant * 10 ^ a.scale * 10 ^ b.scale := by ring
  exact Nat.le_of_mul_le_mul_right key hb

/-- Canonicity: equal cross-multiplied values force equal representations. -/
theorem Dec.eq_of_cross_eq {a b : Dec}
    (h : a.mant * 10 ^ b.scale = b.mant * 10 ^ a.scale) : a = b := by
  rcases Nat.le_total a.scale b.scale with hs | hs
  · obtain ⟨d, hd⟩ := Nat.exists_eq_add_of_le hs
    have hpow : (10 : Nat) ^ b.scale = 10 ^ d * 10 ^ a.scale := by
      rw [hd, Nat.add_comm, pow_add]
    have hcancel : a.mant * 10 ^ d = b.mant := by
      have hpos : 0 < 10 ^ a.scale := Nat.pos_pow_of_pos _ (by decide)
      apply Nat.eq_of_mul_eq_mul_right hpos
      calc a.mant * 10 ^ d * 10 ^ a.scale
          = a.mant * (10 ^ d * 10 ^ a.scale) := by ring
        _ = a.mant * 10 ^ b.scale := by rw [hpow]
        _ = b.mant * 10 ^ a.scale := h
    have hd0 : d = 0 := by
      by_contra hd0
      have hbscale : b.scale ≠ 0 := by omega
      have hmod : b.mant % 10 = 0 := by
        obtain ⟨e, he⟩ := Nat.exists_eq_add_of_le (Nat.one_le_iff_ne_zero.mpr hd0)
        have : b.mant = a.mant * 10 ^ e * 10 := by
          rw [← hcancel, he, Nat.add_comm, pow_add]; ring
        omega
      exact b.canon hbscale hmod
    have hsc : a.scale = b.scale := by omega
    have hm : a.mant = b.mant := by
      have := hcancel
      rw [hd0, pow_zero, Nat.mul_one] at this
      exact this
    cases a; cases b; cases hsc; cases hm; rfl
  · obtain ⟨d, hd⟩ := Nat.exists_eq_add_of_le hs
    have hpow : (10 : Nat) ^ a.scale = 10 ^ d * 10 ^ b.scale := by
      rw [hd, Nat.add_comm, pow_add]
    have hcancel : b.mant * 10 ^ d = a.mant := by
      have hpos : 0 < 10 ^ b.scale := Nat.pos_pow_of_pos _ (by decide)
      apply Nat.eq_of_mul_eq_mul_right hpos
      calc b.mant * 10 ^ d * 10 ^ b.scale
          = b.mant * (10 ^ d * 10 ^ b.scale) := by ring
        _ = b.mant * 10 ^ a.scale := by rw [hpow]
        _ = a.mant * 10 ^ b.scale := h.symm
    have hd0 : d = 0 := by
      by_contra hd0
      have hascale : a.scale ≠ 0 := by omega
      have hmod : a.mant % 10 = 0 := by
        obtain ⟨e, he⟩ := Nat.exists_eq_add_of_le (Nat.one_le_iff_ne_zero.mpr hd0)
        have : a.mant = b.mant * 10 ^ e * 10 := by
          rw [← hcancel, he, Nat.add_comm, pow_add]; ring
        omega
      exact a.canon hascale hmod
    have hsc : a.scale = b.scale := by omega
    have hm : a.mant = b.mant := by
      have := hcancel
      rw [hd0, pow_zero, Nat.mul_one] at this
      exact this.symm
    cases a; cases b; cases hsc; cases hm; rfl

theorem Dec.le_antisymm {a b : Dec} (h1 : a ≤ b) (h2 : b ≤ a) : a = b :=
  Dec.eq_of_cross_eq (Nat.le_antisymm h1 h2)

theorem Dec.lt_of_le_of_ne {a b : Dec} (h1 : a ≤ b) (h2 : a ≠ b) : a < b := by
  rcases Nat.lt_or_ge (a.mant * 10 ^ b.scale) (b.mant * 10 ^ a.scale) with h | h
  · exact h
  · exact absurd (Dec.le_antisymm h1 h) h2

instance : IsTotal Dec (· ≤ ·) := ⟨Dec.le_total⟩

instance : IsTrans Dec (· ≤ ·) := ⟨fun _ _ _ => Dec.le_trans⟩

instance : IsAntisymm Dec (· ≤ ·) := ⟨fun _ _ => Dec.le_antisymm⟩

instance : IsIrrefl Dec (· < ·) := ⟨Dec.lt_irrefl⟩

/-- Canonicalize a raw (mantissa, scale) pair by stripping trailing zeros
of the fractional part (structural recursion on the scale). -/
def canonAux : Nat → Nat → Nat × Nat
  | m, 0 => (m, 0)
  | m, s + 1 => if m % 10 = 0 then canonAux (m / 10) s else (m, s + 1)

theorem canonAux_canon (m s : Nat) :
    (canonAux m s).2 ≠ 0 → (canonAux m s).1 % 10 ≠ 0 := by
  induction s generalizing m with
  | zero => intro h; simp [canonAux] at h
  | succ s ih =>
    intro h
    by_cases hm : m % 10 = 0
    · rw [canonAux, if_pos hm] at h ⊢
      exact ih _ h
    · rw [canonAux, if_neg hm]
      exact hm

/-- Build a canonical decimal from a raw mantissa and scale. -/
def Dec.ofParts (m s : Nat) : Dec :=
  ⟨(canonAux m s).1, (canonAux m s).2, canonAux_canon m s⟩

/-- Split a character list on a separator character (the embedding's
replacement for the string `split` used when parsing selection input). -/
def splitOnChar (sep : Char) : List Char → List (List Char)
  | [] => [[]]
  | c :: cs =>
    match splitOnChar sep cs, decide (c = sep) with
    | r, true => [] :: r
    | [], false => [[c]]
    | t :: ts, false => (c :: t) :: ts

/-- Numeric value of a decimal digit character, if it is one. -/
def digitVal (c : Char) : Option Nat :=
  if '0' ≤ c ∧ c ≤ '9' then some (c.toNat - '0'.toNat) else none

/-- Parse a nonempty run of decimal digits into a natural number. -/
def parseDigitsAux (acc : Nat) : List Char → Option Nat
  | [] => some acc
  | c :: cs =>
    match digitVal c with
    | some d => parseDigitsAux (acc * 10 + d) cs
    | none => none

/-- Parse a nonempty all-digit character list. -/
def parseDigits : List Char → Option Nat
  | [] => none
  | c :: cs => parseDigitsAux 0 (c :: cs)

/-- Parse a decimal number such as `23` or `23.5` into a `Dec`. -/
def parseNumber (cs : List Char) : Option Dec :=
  match splitOnChar '.' cs with
  | [i] => (parseDigits i).map (fun n => Dec.ofParts n 0)
  | [i, f] =>
    match parseDigits i, parseDigits f with
    | some ip, some fp => some (Dec.ofParts (ip * 10 ^ f.length + fp) f.length)
    | _, _ => none
  | _ => none

/-- One term of a chapter-selection expression: a bare number or an
inclusive `low-high` range. -/
inductive SelTerm where
  | single (n : Dec)
  | range (lo hi : Dec)
deriving DecidableEq

/-- Parse one comma-separated term.  A reversed range (`high < low`) and
any non-numeric token fail to parse. -/
def parseTerm (cs : List Char) : Option SelTerm :=
  match splitOnChar '-' cs with
  | [a] => (parseNumber a).map SelTerm.single
  | [a, b] =>
    match parseNumber a, parseNumber b with
    | some lo, some hi => if lo ≤ hi then some (SelTerm.range lo hi) else none
    | _, _ => none
  | _ => none

/-- Parse every term of a comma-split expression; any bad term fails the
whole expression. -/
def parseTerms : List (List Char) → Option (List SelTerm)
  | [] => some []
  | t :: ts =>
    match parseTerm t, parseTerms ts with
    | some a, some as => some (a :: as)
    | _, _ => none

/-- Parse a whole selection expression into its terms. -/
def parseExpr (expr : String) : Option (List SelTerm) :=
  parseTerms (splitOnChar ',' expr.data)

/-- Does a chapter number match one selection term?  A bare number matches
only its exact decimal value; a range matches every value in the inclusive
interval, regardless of step. -/
def termMatches (t : SelTerm) (c : Dec) : Bool :=
  match t with
  | .single n => decide (c = n)
  | .range lo hi => decide (lo ≤ c) && decide (c ≤ hi)

/-- Deduplicate and sort a chapter-number list ascending: the download
order of the resulting SelectionSet. -/
def dedupSort (l : List Dec) : List Dec :=
  List.insertionSort (· ≤ ·) l.dedup

/-- Selector failure taxonomy. -/
inductive SelError where
  | invalidSelection
deriving DecidableEq

instance {ε α : Type} [DecidableEq ε] [DecidableEq α] : DecidableEq (Except ε α) := fun a b =>
  match a, b with
  | .ok x, .ok y =>
    if h : x = y then .isTrue (by rw [h]) else .isFalse (fun e => h (Except.ok.inj e))
  | .ok _, .error _ => .isFalse (fun e => Except.noConfusion e)
  | .error _, .ok _ => .isFalse (fun e => Except.noConfusion e)
  | .error x, .error y =>
    if h : x = y then .isTrue (by rw [h]) else .isFalse (fun e => h (Except.error.inj e))

/-- Chapter Selector: resolve a selection expression against the title's
chapter list.  An empty expression selects all chapters; numbers absent
from the list are silently ignored; an unparseable term aborts with
`InvalidSelection`.  Output is deduplicated and sorted ascending. -/
def resolve (expr : String) (chapters : List Dec) : Except SelError (List Dec) :=
  if expr.data.isEmpty then .ok (dedupSort chapters)
  else
    match parseExpr expr with
    | none => .error .invalidSelection
    | some terms =>
      .ok (dedupSort (chapters.filter (fun c => terms.any (fun t => termMatches t c))))

/-- Chapter lifecycle states. -/
inductive ChapterStatus where
  | pending
  | fetching
  | completed
  | failed
  | converting
  | converted
deriving DecidableEq

/-- Durable per-chapter progress record, keyed by chapter number within a
title: the completed page indices, the total page count and the status. -/
structure Checkpoint where
  completedPageIndices : List Nat
  totalPages : Nat
  status : ChapterStatus
deriving DecidableEq

/-- The Checkpoint Store for one title: an association list keyed by
chapter number. -/
abbrev CpStore := List (Dec × Checkpoint)

/-- Look up the checkpoint of a chapter. -/
def cpLookup (store : CpStore) (c : Dec) : Option Checkpoint :=
  match store with
  | [] => none
  | (k, v) :: rest => if k = c then some v else cpLookup rest c

/-- Save (insert or replace) the checkpoint of a chapter. -/
def cpInsert (store : CpStore) (c : Dec) (cp : Checkpoint) : CpStore :=
  match store with
  | [] => [(c, cp)]
  | (k, v) :: rest => if k = c then (c, cp) :: rest else (k, v) :: cpInsert rest c cp

/-- Page indices a (re-)run still has to fetch for one chapter: all of
them when no checkpoint exists, none recorded complete is ever re-fetched
otherwise. -/
def pagesToFetch (cp? : Option Checkpoint) (total : Nat) : List Nat :=
  match cp? with
  | none => List.range total
  | some cp =>
    (List.range cp.totalPages).filter (fun i => decide (i ∉ cp.completedPageIndices))

/-- One unit of work of the DownloadPlan: a chapter together with the page
indices that still have to be fetched. -/
structure ChapterJob where
  chapter : Dec
  totalPages : Nat
  missing : List Nat
deriving DecidableEq

/-- Materialize the DownloadPlan: the selection minus chapters whose
checkpoint already marks `Converted`; a re-included chapter keeps only its
missing page indices. -/
def buildPlan (selection : List Dec) (totals : Dec → Nat) (store : CpStore) :
    List ChapterJob :=
  selection.filterMap (fun c =>
    match cpLookup store c with
    | some cp =>
      if cp.status = .converted then none
      else some ⟨c, cp.totalPages, pagesToFetch (some cp) (totals c)⟩
    | none => some ⟨c, totals c, pagesToFetch none (totals c)⟩)

/-- Per-title downloader state threaded through a run: the checkpoint
store and the converted output archives (chapter number to archive bytes,
modelled as the ordered page-index list). -/
structure RunState where
  store : CpStore
  output : List (Dec × List Nat)
deriving DecidableEq

/-- Record a chapter's converted archive in the output map. -/
def outInsert (out : List (Dec × List Nat)) (c : Dec) (a : List Nat) :
    List (Dec × List Nat) :=
  match out with
  | [] => [(c, a)]
  | (k, v) :: rest => if k = c then (c, a) :: rest else (k, v) :: outInsert rest c a

/-- Deterministic archive of a fully fetched chapter: its pages in
ascending page-index order. -/
def archiveOf (total : Nat) : List Nat := List.range total

/-- Execute one ChapterJob: fetch every missing page, persist the
checkpoint (all pages complete, chapter converted after the conversion
pipeline runs) and record the archive.  Returns the new state and the
number of network fetches performed. -/
def runJob (st : RunState) (job : ChapterJob) : RunState × Nat :=
  (⟨cpInsert st.store job.chapter
      ⟨List.range job.totalPages, job.totalPages, .converted⟩,
    outInsert st.output job.chapter (archiveOf job.totalPages)⟩,
   job.missing.length)

/-- Execute a DownloadPlan job by job, accumulating the fetch count. -/
def runPlan (st : RunState) : List ChapterJob → RunState × Nat
  | [] => (st, 0)
  | j :: rest =>
    let r1 := runJob st j
    let r2 := runPlan r1.1 rest
    (r2.1, r1.2 + r2.2)

/-- One Orchestrator run over a selection: rebuild the DownloadPlan from
the current checkpoint store, then execute it. -/
def orchestratorRun (selection : List Dec) (totals : Dec → Nat) (st : RunState) :
    RunState × Nat :=
  runPlan st (buildPlan selection totals st.store)

/-- Outcome of a full pipeline invocation from a selection expression. -/
structure RunOutcome where
  result : Except SelError RunState
  fetches : Nat
deriving DecidableEq

/-- Full pipeline: resolve the selection expression first; an invalid
selection aborts immediately, before any fetch. -/
def runFromExpr (expr : String) (chapters : List Dec) (totals : Dec → Nat)
    (st : RunState) : RunOutcome :=
  match resolve expr chapters with
  | .error e => ⟨.error e, 0⟩
  | .ok sel =>
    let r := orchestratorRun sel totals st
    ⟨.ok r.1, r.2⟩

/-- One fetched page of a chapter: its 0-based index (which defines page
order) and its image bytes. -/
structure Page where
  index : Nat
  content : List Nat
deriving DecidableEq

/-- Assembly order is deterministic: pages sorted by ascending page index,
regardless of the order in which fetches completed. -/
def sortPages (ps : List Page) : List Page :=
  List.insertionSort (fun a b => a.index ≤ b.index) ps

/-- PDF assembly: one page image per PDF page, in ascending page-index
order. -/
def assemblePDF (ps : List Page) : List (List Nat) :=
  (sortPages ps).map Page.content

/-- Digits of `n` in a fixed-width zero-padded sequence, most significant
first (`padDigits 3 7 = [0, 0, 7]`). -/
def padDigits : Nat → Nat → List Nat
  | 0, _ => []
  | w + 1, n => n / 10 ^ w :: padDigits w (n % 10 ^ w)

/-- Character of one decimal digit. -/
def digitChar48 (d : Nat) : Char := Char.ofNat (48 + d)

/-- Fixed-width zero-padded archive entry name of a page index, so that
naive alphabetical sort by conforming readers reproduces page order. -/
def zeroPadName (w n : Nat) : String :=
  ⟨(padDigits w n).map digitChar48⟩

/-- CBZ archive: the page images renamed to the zero-padded sequence plus
generated ComicInfo-style metadata carrying title, chapter number and page
count. -/
structure CbzArchive where
  imageEntries : List (String × List Nat)
  metaTitle : String
  metaChapter : Dec
  metaPageCount : Nat
deriving DecidableEq

/-- CBZ assembly for one completed chapter (name width `w`). -/
def makeCBZ (title : String) (chapter : Dec) (w : Nat) (ps : List Page) :
    CbzArchive :=
  { imageEntries := (sortPages ps).map (fun p => (zeroPadName w p.index, p.content))
    metaTitle := title
    metaChapter := chapter
    metaPageCount := ps.length }

/-- Result of the conversion pipeline's archive-then-delete step for one
chapter. -/
structure ConvOutcome where
  archive : Option (List (String × List Nat))
  rawPages : List Page
  deletedRaw : Bool
deriving DecidableEq

/-- Conversion pipeline tail: the raw pages are deleted only after the
archive write is confirmed complete and non-empty (`writeOk` models
whether the archive assembly ran to completion; an interrupted assembly
has `writeOk = false`). -/
def convertChapter (title : String) (chapter : Dec) (w : Nat) (pages : List Page)
    (deleteAfter : Bool) (writeOk : Bool) : ConvOutcome :=
  let confirmed := writeOk && !pages.isEmpty
  let doDelete := confirmed && deleteAfter
  { archive := if confirmed then some (makeCBZ title chapter w pages).imageEntries else none
    rawPages := if doDelete then [] else pages
    deletedRaw := doDelete }

/-- Durable on-disk state visible after a crash: which pages' bytes are
fully persisted, the temporary checkpoint record, and the published
checkpoint record. -/
structure DiskState where
  flushedPages : List Nat
  tempRecord : Option Checkpoint
  record : Option Checkpoint
deriving DecidableEq

/-- One atomic disk transition of the checkpoint write protocol. -/
inductive SaveStep where
  | flushPage (i : Nat)
  | writeTemp (cp : Checkpoint)
  | renameTemp
deriving DecidableEq

/-- Apply one atomic step to the disk. -/
def applyStep (d : DiskState) : SaveStep → DiskState
  | .flushPage i => { d with flushedPages := i :: d.flushedPages }
  | .writeTemp cp => { d with tempRecord := some cp }
  | .renameTemp =>
    match d.tempRecord with
    | some cp => { d with record := some cp, tempRecord := none }
    | none => d

/-- Execute a sequence of atomic steps. -/
def execSteps (d : DiskState) (steps : List SaveStep) : DiskState :=
  steps.foldl applyStep d

/-- The Checkpoint Store save operation for one newly completed page:
flush the page bytes, write the updated record to a temporary location,
then atomically rename/replace the published record. -/
def saveOp (d : DiskState) (i : Nat) (total : Nat) : List SaveStep :=
  let cur := d.record.getD ⟨[], total, .fetching⟩
  [.flushPage i,
   .writeTemp ⟨i :: cur.completedPageIndices, cur.totalPages, cur.status⟩,
   .renameTemp]

/-- The full step trace of a sequence of per-page save operations. -/
def saveTrace (d : DiskState) (total : Nat) : List Nat → List SaveStep
  | [] => []
  | i :: rest =>
    let steps := saveOp d i total
    steps ++ saveTrace (execSteps d steps) total rest

/-- Crash-safety invariant: no persisted record (published or temporary)
claims a page complete whose bytes are not fully on disk. -/
def GoodDisk (d : DiskState) : Prop :=
  (∀ cp, d.record = some cp → ∀ j ∈ cp.completedPageIndices, j ∈ d.flushedPages) ∧
  (∀ cp, d.tempRecord = some cp → ∀ j ∈ cp.completedPageIndices, j ∈ d.flushedPages)

/-- Orchestrator scheduling state: how many chapter jobs are still
pending, how many Chapter Workers are in `Fetching` state, and how many
chapters finished (the instrumented counter of the spec). -/
structure OrchSt where
  pending : Nat
  fetching : Nat
  finished : Nat
deriving DecidableEq

/-- Orchestrator scheduling transitions with chapter-concurrency bound
`N`: a new worker starts only when a pool slot is free; a worker finishing
frees its slot. -/
inductive OrchStep (N : Nat) : OrchSt → OrchSt → Prop
  | dispatch (s : OrchSt) : 0 < s.pending → s.fetching < N →
      OrchStep N s ⟨s.pending - 1, s.fetching + 1, s.finished⟩
  | finish (s : OrchSt) : 0 < s.fetching →
      OrchStep N s ⟨s.pending, s.fetching - 1, s.finished + 1⟩

/-- States reachable by the Orchestrator scheduler from an initial state. -/
inductive OrchReach (N : Nat) (init : OrchSt) : OrchSt → Prop
  | refl : OrchReach N init init
  | step {s t : OrchSt} : OrchReach N init s → OrchStep N s t → OrchReach N init t

/-- Colab notebook zip cell (cell-5): the user enters an integer, `choice`
is that integer minus one, and `manga_folders` is indexed only under the
guard `0 <= choice < len(manga_folders)`; otherwise the cell prints
"Invalid choice!" and creates no archive.  Returns the name of the folder
archived, if any. -/
def zipChoiceCell (userInput : Int) (manga_folders : List String) : Option String :=
  let choice : Int := userInput - 1
  if h : 0 ≤ choice ∧ choice < manga_folders.length then
    some (manga_folders.get ⟨choice.toNat, by
      rcases h with ⟨h0, hlt⟩
      exact (Int.toNat_lt h0).mpr hlt⟩)
  else
    none

/-- Colab notebook split-archive cell (cell-7): identical guard logic to
the zip cell; returns the folder chosen for splitting, if any. -/
def splitChoiceCell (userInput : Int) (manga_folders : List String) : Option String :=
  let choice : Int := userInput - 1
  if h : 0 ≤ choice ∧ choice < manga_folders.length then
    some (manga_folders.get ⟨choice.toNat, by
      rcases h with ⟨h0, hlt⟩
      exact (Int.toNat_lt h0).mpr hlt⟩)
  else
    none

theorem dedupSort_sorted (l : List Dec) : (dedupSort l).Sorted (· ≤ ·) :=
  List.sorted_insertionSort _ _

theorem dedupSort_nodup (l : List Dec) : (dedupSort l).Nodup :=
  ((List.perm_insertionSort _ _).nodup_iff).mpr l.nodup_dedup

theorem dedupSort_sorted_lt (l : List Dec) : (dedupSort l).Sorted (· < ·) := by
  have hs := dedupSort_sorted l
  have hn := dedupSort_nodup l
  exact (hs.and hn).imp (fun h => Dec.lt_of_le_of_ne h.1 h.2)

theorem mem_dedupSort {a : Dec} {l : List Dec} : a ∈ dedupSort l ↔ a ∈ l :=
  ((List.perm_insertionSort _ _).mem_iff).trans List.mem_dedup

theorem dedupSort_eq_self {l : List Dec} (h : l.Sorted (· < ·)) :
    dedupSort l = l := by
  have hn : l.Nodup := h.nodup
  have hle : l.Sorted (· ≤ ·) := h.imp Dec.le_of_lt
  unfold dedupSort
  rw [List.dedup_eq_self.mpr hn]
  exact hle.insertionSort_eq

theorem resolve_empty {chapters : List Dec} (h : chapters.Sorted (· < ·)) :
    resolve "" chapters = .ok chapters := by
  have he : "".data.isEmpty = true := rfl
  simp [resolve, he, dedupSort_eq_self h]

theorem resolve_ok_sorted {expr : String} {chapters res : List Dec}
    (h : resolve expr chapters = .ok res) : res.Sorted (· < ·) ∧ res.Nodup := by
  unfold resolve at h
  split at h
  · cases h
    exact ⟨dedupSort_sorted_lt _, dedupSort_nodup _⟩
  · split at h
    · cases h
    · cases h
      exact ⟨dedupSort_sorted_lt _, dedupSort_nodup _⟩

theorem resolve_of_parsed {expr : String} {terms : List SelTerm}
    (chapters : List Dec) (hne : expr.data.isEmpty = false)
    (hp : parseExpr expr = some terms) :
    resolve expr chapters =
      .ok (dedupSort (chapters.filter (fun c => terms.any (fun t => termMatches t c)))) := by
  unfold resolve
  rw [hne, hp]
  rfl

theorem mem_resolve_of_parsed {terms : List SelTerm}
    {chapters : List Dec} (c : Dec) :
    c ∈ dedupSort (chapters.filter (fun c => terms.any (fun t => termMatches t c))) ↔
      c ∈ chapters ∧ ∃ t ∈ terms, termMatches t c = true := by
  rw [mem_dedupSort, List.mem_filter, List.any_eq_true]

theorem parseTerms_eq_none {parts : List (List Char)} {t : List Char}
    (hmem : t ∈ parts) (hbad : parseTerm t = none) : parseTerms parts = none := by
  induction parts with
  | nil => cases hmem
  | cons p ps ih =>
    rcases List.mem_cons.mp hmem with h | h
    · subst h
      unfold parseTerms
      rw [hbad]
    · unfold parseTerms
      rw [ih h]
      cases parseTerm p <;> rfl

theorem resolve_invalid {expr : String} (chapters : List Dec)
    (hne : expr.data.isEmpty = false) (hp : parseExpr expr = none) :
    resolve expr chapters = .error .invalidSelection := by
  unfold resolve
  rw [hne, hp]
  rfl

theorem runFromExpr_error {expr : String} {chapters : List Dec}
    {totals : Dec → Nat} {st : RunState}
    (h : resolve expr chapters = .error .invalidSelection) :
    runFromExpr expr chapters totals st = ⟨.error .invalidSelection, 0⟩ := by
  unfold runFromExpr
  rw [h]

/-- C5: for every valid chapter-selection expression and every chapter
list, the Selector's output SelectionSet is sorted strictly ascending in
decimal order and has no duplicate chapter numbers, independent of the
order terms appeared in the expression; resolving the empty expression
returns exactly the full chapter list. -/
theorem selector_output_sorted_nodup_and_empty_selects_all :
    (∀ (expr : String) (chapters res : List Dec),
        resolve expr chapters = .ok res →
        res.Sorted (· < ·) ∧ res.Nodup) ∧
    (∀ chapters : List Dec, chapters.Sorted (· < ·) →
        resolve "" chapters = .ok chapters) :=
  ⟨fun _ _ _ h => resolve_ok_sorted h, fun _ h => resolve_empty h⟩

theorem selector_output_sorted_nodup_and_empty_selects_all_witness :
    (resolve "10-20,1" [Dec.ofParts 105 1, Dec.ofParts 1 0] =
        .ok [Dec.ofParts 1 0, Dec.ofParts 105 1]) ∧
    ([Dec.ofParts 1 0, Dec.ofParts 105 1].Sorted (· < ·) ∧
        [Dec.ofParts 1 0, Dec.ofParts 105 1].Nodup) ∧
    resolve "" [Dec.ofParts 1 0, Dec.ofParts 105 1] =
        .ok [Dec.ofParts 1 0, Dec.ofParts 105 1] :=
  ⟨by decide,
   selector_output_sorted_nodup_and_empty_selects_all.1 "10-20,1"
     [Dec.ofParts 105 1, Dec.ofParts 1 0] _ (by decide),
   selector_output_sorted_nodup_and_empty_selects_all.2 _ (by decide)⟩

/-- C6: a bare number term selects the chapter with that exact decimal
value only if present and is otherwise silently ignored with no error; a
range term selects every existing chapter in the inclusive interval
`[low, high]` regardless of step; concretely, `resolve "1,5,10-20"`
against `1,2,5,10,10.5,15,20,21` yields `{1,5,10,10.5,15,20}`. -/
theorem selector_term_semantics :
    (∀ (expr : String) (terms : List SelTerm) (chapters : List Dec),
        expr.data.isEmpty = false → parseExpr expr = some terms →
        ∃ res, resolve expr chapters = .ok res ∧
          ∀ c : Dec, c ∈ res ↔ c ∈ chapters ∧ ∃ t ∈ terms, termMatches t c = true) ∧
    (∀ n c : Dec, termMatches (.single n) c = true ↔ c = n) ∧
    (∀ lo hi c : Dec, termMatches (.range lo hi) c = true ↔ lo ≤ c ∧ c ≤ hi) ∧
    resolve "1,5,10-20"
        [Dec.ofParts 1 0, Dec.ofParts 2 0, Dec.ofParts 5 0, Dec.ofParts 10 0,
         Dec.ofParts 105 1, Dec.ofParts 15 0, Dec.ofParts 20 0, Dec.ofParts 21 0] =
      .ok [Dec.ofParts 1 0, Dec.ofParts 5 0, Dec.ofParts 10 0, Dec.ofParts 105 1,
           Dec.ofParts 15 0, Dec.ofParts 20 0] :=
  ⟨fun _ _ chapters hne hp =>
    ⟨_, resolve_of_parsed chapters hne hp, fun c => mem_resolve_of_parsed c⟩,
   fun n c => by simp [termMatches],
   fun lo hi c => by simp [termMatches],
   by decide⟩

theorem selector_term_semantics_witness :
    ("3,1-2".data.isEmpty = false ∧
     parseExpr "3,1-2" =
       some [SelTerm.single (Dec.ofParts 3 0),
             SelTerm.range (Dec.ofParts 1 0) (Dec.ofParts 2 0)]) ∧
    (∃ res, resolve "3,1-2" [Dec.ofParts 1 0, Dec.ofParts 4 0] = .ok res ∧
      ∀ c : Dec, c ∈ res ↔ c ∈ [Dec.ofParts 1 0, Dec.ofParts 4 0] ∧
        ∃ t ∈ [SelTerm.single (Dec.ofParts 3 0),
               SelTerm.range (Dec.ofParts 1 0) (Dec.ofParts 2 0)],
          termMatches t c = true) :=
  ⟨⟨by decide, by decide⟩,
   selector_term_semantics.1 "3,1-2" _ _ (by decide) (by decide)⟩

/-- C7: a selection expression containing a term that cannot be parsed as
a number or range (including a reversed range such as `5-1` and any
non-numeric token) makes the Selector fail with `InvalidSelection` rather
than return a SelectionSet, and the failure aborts the run before any
fetch. -/
theorem selector_invalid_term_aborts :
    (∀ (expr : String) (chapters : List Dec) (t : List Char),
        expr.data.isEmpty = false → t ∈ splitOnChar ',' expr.data →
        parseTerm t = none →
        resolve expr chapters = .error .invalidSelection) ∧
    parseTerm "5-1".data = none ∧
    (∀ chapters : List Dec, resolve "5-1" chapters = .error .invalidSelection) ∧
    (∀ (expr : String) (chapters : List Dec) (totals : Dec → Nat) (st : RunState),
        resolve expr chapters = .error .invalidSelection →
        runFromExpr expr chapters totals st = ⟨.error .invalidSelection, 0⟩) :=
  ⟨fun _ chapters _ hne hmem hbad =>
    resolve_invalid chapters hne (parseTerms_eq_none hmem hbad),
   by decide,
   fun chapters => resolve_invalid chapters (by decide) (by decide),
   fun _ _ _ _ h => runFromExpr_error h⟩

theorem selector_invalid_term_aborts_witness :
    ("x".data.isEmpty = false ∧ "x".data ∈ splitOnChar ',' "x".data ∧
     parseTerm "x".data = none) ∧
    resolve "x" [] = .error .invalidSelection ∧
    runFromExpr "5-1" [] (fun _ => 0) ⟨[], []⟩ = ⟨.error .invalidSelection, 0⟩ :=
  ⟨⟨by decide, by decide, by decide⟩,
   selector_invalid_term_aborts.1 "x" [] "x".data (by decide) (by decide) (by decide),
   selector_invalid_term_aborts.2.2.2 "5-1" [] (fun _ => 0) ⟨[], []⟩
     (selector_invalid_term_aborts.2.2.1 [])⟩

theorem cpLookup_cpInsert_self (s : CpStore) (c : Dec) (cp : Checkpoint) :
    cpLookup (cpInsert s c cp) c = some cp := by
  induction s with
  | nil => simp [cpInsert, cpLookup]
  | cons kv rest ih =>
    obtain ⟨k, v⟩ := kv
    by_cases h : k = c
    · simp [cpInsert, h, cpLookup]
    · simp [cpInsert, h, cpLookup, ih]

theorem cpLookup_cpInsert_ne (s : CpStore) {c c' : Dec} (h : c ≠ c')
    (cp : Checkpoint) : cpLookup (cpInsert s c cp) c' = cpLookup s c' := by
  induction s with
  | nil => simp [cpInsert, cpLookup, h]
  | cons kv rest ih =>
    obtain ⟨k, v⟩ := kv
    by_cases hk : k = c
    · subst hk
      simp [cpInsert, cpLookup, h]
    · simp [cpInsert, hk, cpLookup, ih]

theorem runPlan_cons (st : RunState) (j : ChapterJob) (rest : List ChapterJob) :
    runPlan st (j :: rest) =
      ((runPlan (runJob st j).1 rest).1,
       (runJob st j).2 + (runPlan (runJob st j).1 rest).2) := rfl

theorem runJob_store (st : RunState) (j : ChapterJob) :
    (runJob st j).1.store =
      cpInsert st.store j.chapter ⟨List.range j.totalPages, j.totalPages, .converted⟩ := rfl

theorem runPlan_lookup (plan : List ChapterJob) (st : RunState) (c : Dec) :
    cpLookup (runPlan st plan).1.store c = cpLookup st.store c ∨
    ∃ total, cpLookup (runPlan st plan).1.store c =
      some ⟨List.range total, total, .converted⟩ := by
  induction plan generalizing st with
  | nil => left; rfl
  | cons j rest ih =>
    rw [runPlan_cons]
    rcases ih (runJob st j).1 with h | h
    · by_cases hc : j.chapter = c
      · right
        refine ⟨j.totalPages, ?_⟩
        rw [h, runJob_store, hc]
        exact cpLookup_cpInsert_self _ _ _
      · left
        rw [h, runJob_store]
        exact cpLookup_cpInsert_ne _ hc _
    · right
      exact h

theorem runPlan_mem_converted (plan : List ChapterJob) (st : RunState)
    {j : ChapterJob} (hj : j ∈ plan) :
    ∃ total, cpLookup (runPlan st plan).1.store j.chapter =
      some ⟨List.range total, total, .converted⟩ := by
  induction plan generalizing st with
  | nil => cases hj
  | cons a rest ih =>
    rw [runPlan_cons]
    rcases List.mem_cons.mp hj with h | h
    · subst h
      rcases runPlan_lookup rest (runJob st j).1 j.chapter with h2 | h2
      · refine ⟨j.totalPages, ?_⟩
        rw [h2, runJob_store]
        exact cpLookup_cpInsert_self _ _ _
      · exact h2
    · exact ih _ h

theorem buildPlan_job_spec {sel : List Dec} {totals : Dec → Nat}
    {store : CpStore} {job : ChapterJob} (hj : job ∈ buildPlan sel totals store) :
    job.chapter ∈ sel ∧
      ((∃ cp, cpLookup store job.chapter = some cp ∧ cp.status ≠ .converted ∧
          job.totalPages = cp.totalPages ∧
          job.missing = pagesToFetch (some cp) (totals job.chapter)) ∨
       (cpLookup store job.chapter = none ∧ job.totalPages = totals job.chapter ∧
          job.missing = pagesToFetch none (totals job.chapter))) := by
  obtain ⟨a, ha, hfa⟩ := List.mem_filterMap.mp hj
  cases hcp : cpLookup store a with
  | none =>
    rw [hcp] at hfa
    have hfa' : some (⟨a, totals a, pagesToFetch none (totals a)⟩ : ChapterJob) =
        some job := hfa
    have hjob : job = ⟨a, totals a, pagesToFetch none (totals a)⟩ :=
      (Option.some.inj hfa').symm
    subst hjob
    exact ⟨ha, Or.inr ⟨hcp, rfl, rfl⟩⟩
  | some cp =>
    rw [hcp] at hfa
    have hfa' : (if cp.status = ChapterStatus.converted then none
        else some (⟨a, cp.totalPages, pagesToFetch (some cp) (totals a)⟩ : ChapterJob)) =
        some job := hfa
    by_cases hst : cp.status = ChapterStatus.converted
    · rw [if_pos hst] at hfa'
      cases hfa'
    · rw [if_neg hst] at hfa'
      have hjob : job = ⟨a, cp.totalPages, pagesToFetch (some cp) (totals a)⟩ :=
        (Option.some.inj hfa').symm
      subst hjob
      exact ⟨ha, Or.inl ⟨cp, hcp, hst, rfl, rfl⟩⟩

theorem pagesToFetch_mem {cp : Checkpoint} {total i : Nat} :
    i ∈ pagesToFetch (some cp) total ↔
      i < cp.totalPages ∧ i ∉ cp.completedPageIndices := by
  simp [pagesToFetch, List.mem_filter, List.mem_range]

theorem pagesToFetch_not_mem {cp : Checkpoint} {total i : Nat}
    (h : i ∈ cp.completedPageIndices) : i ∉ pagesToFetch (some cp) total :=
  fun hmem => (pagesToFetch_mem.mp hmem).2 h

theorem orchestratorRun_selected_converted (sel : List Dec) (totals : Dec → Nat)
    (st : RunState) {c : Dec} (hc : c ∈ sel) :
    ∃ cp, cpLookup (orchestratorRun sel totals st).1.store c = some cp ∧
      cp.status = .converted := by
  unfold orchestratorRun
  cases hcp : cpLookup st.store c with
  | none =>
    have hj : (⟨c, totals c, pagesToFetch none (totals c)⟩ : ChapterJob) ∈
        buildPlan sel totals st.store :=
      List.mem_filterMap.mpr ⟨c, hc, by rw [hcp]⟩
    obtain ⟨total, h⟩ := runPlan_mem_converted _ st hj
    exact ⟨_, h, rfl⟩
  | some cp =>
    by_cases hst : cp.status = ChapterStatus.converted
    · rcases runPlan_lookup (buildPlan sel totals st.store) st c with h | ⟨total, h⟩
      · exact ⟨cp, by rw [h, hcp], hst⟩
      · exact ⟨_, h, rfl⟩
    · have hj : (⟨c, cp.totalPages, pagesToFetch (some cp) (totals c)⟩ : ChapterJob) ∈
          buildPlan sel totals st.store :=
        List.mem_filterMap.mpr ⟨c, hc, by rw [hcp]; exact if_neg hst⟩
      obtain ⟨total, h⟩ := runPlan_mem_converted _ st hj
      exact ⟨_, h, rfl⟩

theorem buildPlan_eq_nil {sel : List Dec} {totals : Dec → Nat} {store : CpStore}
    (h : ∀ c ∈ sel, ∃ cp, cpLookup store c = some cp ∧ cp.status = .converted) :
    buildPlan sel totals store = [] := by
  apply List.filterMap_eq_nil_iff.mpr
  intro c hc
  obtain ⟨cp, hcp, hst⟩ := h c hc
  rw [hcp]
  have : (if cp.status = ChapterStatus.converted then none
      else some (⟨c, cp.totalPages, pagesToFetch (some cp) (totals c)⟩ : ChapterJob)) =
      none := if_pos hst
  exact this

/-- C1: for a chapter whose Checkpoint exists with status not `Converted`,
a re-run's DownloadPlan contains a job for that chapter that fetches
exactly the page indices not in `completedPageIndices` and never an index
already recorded complete; with `{0,1,2}` complete out of 5, only `{3,4}`
are fetched. -/
theorem resume_fetches_only_missing :
    ∀ (sel : List Dec) (totals : Dec → Nat) (store : CpStore) (c : Dec)
      (cp : Checkpoint),
      c ∈ sel → cpLookup store c = some cp → cp.status ≠ .converted →
      ∃ job ∈ buildPlan sel totals store,
        job.chapter = c ∧
        (∀ i, i ∈ job.missing ↔ i < cp.totalPages ∧ i ∉ cp.completedPageIndices) ∧
        ∀ i ∈ cp.completedPageIndices, i ∉ job.missing := by
  intro sel totals store c cp hc hcp hst
  refine ⟨⟨c, cp.totalPages, pagesToFetch (some cp) (totals c)⟩,
    List.mem_filterMap.mpr ⟨c, hc, by rw [hcp]; exact if_neg hst⟩, rfl, ?_, ?_⟩
  · intro i
    exact @pagesToFetch_mem cp (totals c) i
  · intro i hi
    exact @pagesToFetch_not_mem cp (totals c) i hi

theorem resume_fetches_only_missing_witness :
    (cpLookup [(Dec.ofParts 5 0, ⟨[0, 1, 2], 5, .completed⟩)] (Dec.ofParts 5 0) =
        some ⟨[0, 1, 2], 5, .completed⟩ ∧
      (⟨[0, 1, 2], 5, .completed⟩ : Checkpoint).status ≠ .converted) ∧
    (∃ job ∈ buildPlan [Dec.ofParts 5 0] (fun _ => 5)
        [(Dec.ofParts 5 0, ⟨[0, 1, 2], 5, .completed⟩)],
      job.chapter = Dec.ofParts 5 0 ∧
      (∀ i, i ∈ job.missing ↔ i < 5 ∧ i ∉ ([0, 1, 2] : List Nat)) ∧
      ∀ i ∈ ([0, 1, 2] : List Nat), i ∉ job.missing) ∧
    buildPlan [Dec.ofParts 5 0] (fun _ => 5)
        [(Dec.ofParts 5 0, ⟨[0, 1, 2], 5, .completed⟩)] =
      [⟨Dec.ofParts 5 0, 5, [3, 4]⟩] :=
  ⟨⟨by decide, by decide⟩,
   resume_fetches_only_missing [Dec.ofParts 5 0] (fun _ => 5)
     [(Dec.ofParts 5 0, ⟨[0, 1, 2], 5, .completed⟩)] (Dec.ofParts 5 0)
     ⟨[0, 1, 2], 5, .completed⟩ (by decide) (by decide) (by decide),
   by decide⟩

/-- C2: re-running the Orchestrator with the same selection on the store
left by a completed run rebuilds a DownloadPlan that excludes every
chapter already marked `Converted` and, in any re-included chapter, skips
every page index recorded complete; after a completed run the rebuilt
plan is empty, so the second run performs zero network fetches and leaves
the checkpoint store and output byte-identical. -/
theorem orchestrator_idempotent :
    ∀ (sel : List Dec) (totals : Dec → Nat) (st : RunState),
      (∀ c cp, cpLookup st.store c = some cp → cp.status = .converted →
        ∀ job ∈ buildPlan sel totals st.store, job.chapter ≠ c) ∧
      (∀ job ∈ buildPlan sel totals st.store, ∀ cp,
        cpLookup st.store job.chapter = some cp →
        ∀ i ∈ cp.completedPageIndices, i ∉ job.missing) ∧
      buildPlan sel totals (orchestratorRun sel totals st).1.store = [] ∧
      orchestratorRun sel totals (orchestratorRun sel totals st).1 =
        ((orchestratorRun sel totals st).1, 0) := by
  intro sel totals st
  have hplan2 : buildPlan sel totals (orchestratorRun sel totals st).1.store = [] :=
    buildPlan_eq_nil (fun c hc => orchestratorRun_selected_converted sel totals st hc)
  refine ⟨?_, ?_, hplan2, ?_⟩
  · intro c cp hcp hst job hj hne
    rcases (buildPlan_job_spec hj).2 with ⟨cp', hcp', hst', _, _⟩ | ⟨hnone, _, _⟩
    · rw [hne, hcp] at hcp'
      exact hst' ((Option.some.inj hcp') ▸ hst)
    · rw [hne, hcp] at hnone
      cases hnone
  · intro job hj cp hcp i hi
    rcases (buildPlan_job_spec hj).2 with ⟨cp', hcp', _, _, hmiss⟩ | ⟨hnone, _, _⟩
    · rw [hcp] at hcp'
      cases Option.some.inj hcp'
      rw [hmiss]
      exact pagesToFetch_not_mem hi
    · rw [hcp] at hnone
      cases hnone
  · show runPlan (orchestratorRun sel totals st).1
        (buildPlan sel totals (orchestratorRun sel totals st).1.store) = _
    rw [hplan2]
    rfl

theorem orchestrator_idempotent_witness :
    (cpLookup [(Dec.ofParts 7 0, ⟨[0], 1, .converted⟩)] (Dec.ofParts 7 0) =
        some ⟨[0], 1, .converted⟩ ∧
      (⟨[0], 1, .converted⟩ : Checkpoint).status = .converted) ∧
    (∀ job ∈ buildPlan [Dec.ofParts 7 0] (fun _ => 1)
        [(Dec.ofParts 7 0, ⟨[0], 1, .converted⟩)], job.chapter ≠ Dec.ofParts 7 0) ∧
    buildPlan [Dec.ofParts 5 0] (fun _ => 2)
        (orchestratorRun [Dec.ofParts 5 0] (fun _ => 2) ⟨[], []⟩).1.store = [] ∧
    orchestratorRun [Dec.ofParts 5 0] (fun _ => 2)
        (orchestratorRun [Dec.ofParts 5 0] (fun _ => 2) ⟨[], []⟩).1 =
      ((orchestratorRun [Dec.ofParts 5 0] (fun _ => 2) ⟨[], []⟩).1, 0) :=
  ⟨⟨by decide, by decide⟩,
   (orchestrator_idempotent [Dec.ofParts 7 0] (fun _ => 1)
       ⟨[(Dec.ofParts 7 0, ⟨[0], 1, .converted⟩)], []⟩).1
     (Dec.ofParts 7 0) ⟨[0], 1, .converted⟩ (by decide) (by decide),
   (orchestrator_idempotent [Dec.ofParts 5 0] (fun _ => 2) ⟨[], []⟩).2.2.1,
   (orchestrator_idempotent [Dec.ofParts 5 0] (fun _ => 2) ⟨[], []⟩).2.2.2⟩

/-- C3: in the Conversion Pipeline, whenever the archive write is not
confirmed complete and non-empty (interrupted assembly, or an empty page
set), the raw page files are not deleted and still exist after the run,
even with `deleteAfter = true`; deletion runs only after a confirmed
complete, non-empty archive write. -/
theorem conversion_deletion_guard :
    ∀ (title : String) (chapter : Dec) (w : Nat) (pages : List Page)
      (deleteAfter writeOk : Bool),
      (¬ (writeOk = true ∧ pages ≠ []) →
        (convertChapter title chapter w pages deleteAfter writeOk).rawPages = pages ∧
        (convertChapter title chapter w pages deleteAfter writeOk).deletedRaw = false ∧
        (convertChapter title chapter w pages deleteAfter writeOk).archive = none) ∧
      ((convertChapter title chapter w pages deleteAfter writeOk).deletedRaw = true →
        writeOk = true ∧ pages ≠ []) := by
  intro title chapter w pages deleteAfter writeOk
  constructor
  · intro h
    by_cases hw : writeOk = true
    · have hp : pages = [] := by
        by_contra hp
        exact h ⟨hw, hp⟩
      subst hp
      simp [convertChapter, hw]
    · have hw' : writeOk = false := by
        cases writeOk
        · rfl
        · exact absurd rfl hw
      subst hw'
      simp [convertChapter]
  · intro h
    by_cases hw : writeOk = true
    · by_cases hp : pages = []
      · subst hp
        simp [convertChapter] at h
      · exact ⟨hw, hp⟩
    · have hw' : writeOk = false := by
        cases writeOk
        · rfl
        · exact absurd rfl hw
      rw [hw'] at h
      simp [convertChapter] at h

theorem conversion_deletion_guard_witness :
    (¬ ((false : Bool) = true ∧ ([⟨0, [7]⟩] : List Page) ≠ [])) ∧
    ((convertChapter "t" (Dec.ofParts 1 0) 3 [⟨0, [7]⟩] true false).rawPages =
        [⟨0, [7]⟩] ∧
      (convertChapter "t" (Dec.ofParts 1 0) 3 [⟨0, [7]⟩] true false).deletedRaw = false ∧
      (convertChapter "t" (Dec.ofParts 1 0) 3 [⟨0, [7]⟩] true false).archive = none) :=
  ⟨by decide,
   (conversion_deletion_guard "t" (Dec.ofParts 1 0) 3 [⟨0, [7]⟩] true false).1
     (by decide)⟩

theorem execSteps_append (d : DiskState) (a b : List SaveStep) :
    execSteps d (a ++ b) = execSteps (execSteps d a) b := by
  unfold execSteps
  exact List.foldl_append _ _ _ _

theorem goodDisk_flush {d : DiskState} (hG : GoodDisk d) (i : Nat) :
    GoodDisk (applyStep d (.flushPage i)) := by
  constructor
  · intro cp hcp j hj
    exact List.mem_cons_of_mem _ (hG.1 cp hcp j hj)
  · intro cp hcp j hj
    exact List.mem_cons_of_mem _ (hG.2 cp hcp j hj)

theorem goodDisk_writeTemp {d : DiskState} (hG : GoodDisk d) {cp' : Checkpoint}
    (hsub : ∀ j ∈ cp'.completedPageIndices, j ∈ d.flushedPages) :
    GoodDisk (applyStep d (.writeTemp cp')) := by
  constructor
  · intro cp hcp j hj
    exact hG.1 cp hcp j hj
  · intro cp hcp j hj
    cases Option.some.inj hcp
    exact hsub j hj

theorem goodDisk_rename {d : DiskState} (hG : GoodDisk d) :
    GoodDisk (applyStep d .renameTemp) := by
  cases hrec : d.tempRecord with
  | none =>
    have he : applyStep d .renameTemp = d := by
      simp [applyStep, hrec]
    rw [he]
    exact hG
  | some cp' =>
    have he : applyStep d .renameTemp =
        { d with record := some cp', tempRecord := none } := by
      simp [applyStep, hrec]
    rw [he]
    constructor
    · intro cp hcp j hj
      cases Option.some.inj hcp
      exact hG.2 cp' hrec j hj
    · intro cp hcp j hj
      cases hcp

theorem append_eq_append_cases {α : Type} (pre suf a b : List α)
    (h : pre ++ suf = a ++ b) :
    (∃ s1, pre ++ s1 = a) ∨ (∃ p2, pre = a ++ p2 ∧ p2 ++ suf = b) := by
  induction a generalizing pre with
  | nil => right; exact ⟨pre, rfl, h⟩
  | cons x a2 iha =>
    cases pre with
    | nil => left; exact ⟨x :: a2, rfl⟩
    | cons y pre2 =>
      rw [List.cons_append, List.cons_append] at h
      injection h with h1 h2
      subst h1
      rcases iha pre2 h2 with ⟨s1, hs1⟩ | ⟨p2, hp1, hp2⟩
      · left
        exact ⟨s1, by rw [List.cons_append, hs1]⟩
      · right
        exact ⟨p2, by rw [hp1, List.cons_append], hp2⟩

theorem goodDisk_saveOp_upto (d : DiskState) (i total : Nat)
    (pre suf : List SaveStep) (hG : GoodDisk d)
    (heq : pre ++ suf = saveOp d i total) : GoodDisk (execSteps d pre) := by
  have hsub : ∀ j ∈ i :: (d.record.getD ⟨[], total, .fetching⟩).completedPageIndices,
      j ∈ (applyStep d (.flushPage i)).flushedPages := by
    intro j hj
    rcases List.mem_cons.mp hj with hji | hjc
    · subst hji
      exact List.mem_cons_self _ _
    · cases hrec : d.record with
      | none =>
        rw [hrec] at hjc
        cases hjc
      | some cp0 =>
        rw [hrec] at hjc
        exact List.mem_cons_of_mem _ (hG.1 cp0 hrec j hjc)
  cases pre with
  | nil => exact hG
  | cons a pre1 =>
    rw [List.cons_append] at heq
    injection heq with h1 heq
    subst h1
    cases pre1 with
    | nil => exact goodDisk_flush hG i
    | cons b pre2 =>
      rw [List.cons_append] at heq
      injection heq with h2 heq
      subst h2
      cases pre2 with
      | nil => exact goodDisk_writeTemp (goodDisk_flush hG i) hsub
      | cons c pre3 =>
        rw [List.cons_append] at heq
        injection heq with h3 heq
        subst h3
        cases pre3 with
        | nil => exact goodDisk_rename (goodDisk_writeTemp (goodDisk_flush hG i) hsub)
        | cons e pre4 =>
          rw [List.cons_append] at heq
          simp at heq

theorem goodDisk_saveTrace_upto (is : List Nat) :
    ∀ (d : DiskState) (total : Nat) (pre suf : List SaveStep),
      GoodDisk d → pre ++ suf = saveTrace d total is →
      GoodDisk (execSteps d pre) := by
  induction is with
  | nil =>
    intro d total pre suf hG heq
    have hnil : pre = [] := (List.append_eq_nil.mp heq).1
    subst hnil
    exact hG
  | cons i rest ih =>
    intro d total pre suf hG heq
    rw [saveTrace] at heq
    rcases append_eq_append_cases pre suf _ _ heq with ⟨s1, hs1⟩ | ⟨p2, hp1, hp2⟩
    · exact goodDisk_saveOp_upto d i total pre s1 hG hs1
    · have hGmid : GoodDisk (execSteps d (saveOp d i total)) :=
        goodDisk_saveOp_upto d i total (saveOp d i total) [] hG
          (List.append_nil _)
      have := ih (execSteps d (saveOp d i total)) total p2 suf hGmid hp2
      rw [hp1, execSteps_append]
      exact this

/-- C4: for every sequence of Checkpoint Store save operations and every
point of process termination (any prefix of the atomic step trace), the
persisted Checkpoint never claims a page index complete whose page bytes
were not fully persisted: each save writes the updated record to a
temporary location and atomically renames it only after the page bytes
are flushed. -/
theorem checkpoint_crash_safety :
    ∀ (d : DiskState) (total : Nat) (is : List Nat) (pre suf : List SaveStep),
      GoodDisk d → pre ++ suf = saveTrace d total is →
      ∀ cp, (execSteps d pre).record = some cp →
        ∀ j ∈ cp.completedPageIndices, j ∈ (execSteps d pre).flushedPages :=
  fun _ total is pre suf hG heq =>
    (goodDisk_saveTrace_upto is _ total pre suf hG heq).1

theorem checkpoint_crash_safety_witness :
    (GoodDisk ⟨[], none, none⟩ ∧
     ([SaveStep.flushPage 0, SaveStep.writeTemp ⟨[0], 2, .fetching⟩,
       SaveStep.renameTemp] : List SaveStep) ++ [] =
       saveTrace ⟨[], none, none⟩ 2 [0] ∧
     (execSteps ⟨[], none, none⟩
         [SaveStep.flushPage 0, SaveStep.writeTemp ⟨[0], 2, .fetching⟩,
          SaveStep.renameTemp]).record = some ⟨[0], 2, .fetching⟩) ∧
    ∀ j ∈ ([0] : List Nat), j ∈ (execSteps ⟨[], none, none⟩
        [SaveStep.flushPage 0, SaveStep.writeTemp ⟨[0], 2, .fetching⟩,
         SaveStep.renameTemp]).flushedPages :=
  ⟨⟨⟨(fun cp hcp => nomatch hcp), (fun cp hcp => nomatch hcp)⟩, by decide, by decide⟩,
   checkpoint_crash_safety ⟨[], none, none⟩ 2 [0]
     [SaveStep.flushPage 0, SaveStep.writeTemp ⟨[0], 2, .fetching⟩,
      SaveStep.renameTemp] []
     ⟨(fun cp hcp => nomatch hcp), (fun cp hcp => nomatch hcp)⟩ (by decide)
     ⟨[0], 2, .fetching⟩ (by decide)⟩

theorem orchStep_fetching_le {N : Nat} {s t : OrchSt} (h : OrchStep N s t)
    (hs : s.fetching ≤ N) : t.fetching ≤ N := by
  cases h with
  | dispatch hp hf => exact hf
  | finish hf => exact Nat.le_trans (Nat.sub_le _ _) hs

theorem orchReach_fetching_le {N : Nat} {init s : OrchSt}
    (hinit : init.fetching ≤ N) (h : OrchReach N init s) : s.fetching ≤ N := by
  induction h with
  | refl => exact hinit
  | step _ hstep ih => exact orchStep_fetching_le hstep ih

/-- C9: in every Orchestrator run with chapter-concurrency parameter `N`
(supported range 1 to 8), at every reachable point of the execution the
number of Chapter Workers simultaneously in the `Fetching` state never
exceeds `N`, no matter how many chapters are eligible. -/
theorem concurrency_bound :
    ∀ N : Nat, 1 ≤ N → N ≤ 8 →
      ∀ (jobs : Nat) (s : OrchSt),
        OrchReach N ⟨jobs, 0, 0⟩ s → s.fetching ≤ N :=
  fun N _ _ _ _ h => orchReach_fetching_le (Nat.zero_le N) h

theorem concurrency_bound_witness :
    ((1 ≤ 3 ∧ 3 ≤ 8) ∧ OrchReach 3 ⟨5, 0, 0⟩ ⟨2, 3, 0⟩) ∧
    (⟨2, 3, 0⟩ : OrchSt).fetching ≤ 3 :=
  have r : OrchReach 3 ⟨5, 0, 0⟩ ⟨2, 3, 0⟩ :=
    .step (.step (.step .refl (.dispatch ⟨5, 0, 0⟩ (by decide) (by decide)))
        (.dispatch ⟨4, 1, 0⟩ (by decide) (by decide)))
      (.dispatch ⟨3, 2, 0⟩ (by decide) (by decide))
  ⟨⟨⟨by decide, by decide⟩, r⟩, concurrency_bound 3 (by decide) (by decide) 5 _ r⟩

/-- C10: in the Colab notebook's folder-archiving cells, for every integer
the user enters, `manga_folders` is indexed with the derived `choice`
value only under the guard `0 <= choice < len(manga_folders)` (so the
indexing is always in bounds), and every out-of-range integer takes the
"Invalid choice!" branch, producing no archive in either cell. -/
theorem colab_choice_guard :
    ∀ (n : Int) (manga_folders : List String),
      (∀ f, zipChoiceCell n manga_folders = some f →
        ∃ i : Fin manga_folders.length,
          ((i : Nat) : Int) = n - 1 ∧ f = manga_folders.get i) ∧
      (∀ f, splitChoiceCell n manga_folders = some f →
        ∃ i : Fin manga_folders.length,
          ((i : Nat) : Int) = n - 1 ∧ f = manga_folders.get i) ∧
      (¬ (0 ≤ n - 1 ∧ n - 1 < (manga_folders.length : Int)) →
        zipChoiceCell n manga_folders = none ∧
        splitChoiceCell n manga_folders = none) := by
  intro n folders
  refine ⟨?_, ?_, ?_⟩
  · intro f hf
    unfold zipChoiceCell at hf
    dsimp only at hf
    split at hf
    next h =>
      cases Option.some.inj hf
      exact ⟨⟨(n - 1).toNat, (Int.toNat_lt h.1).mpr h.2⟩,
        Int.toNat_of_nonneg h.1, rfl⟩
    next h => cases hf
  · intro f hf
    unfold splitChoiceCell at hf
    dsimp only at hf
    split at hf
    next h =>
      cases Option.some.inj hf
      exact ⟨⟨(n - 1).toNat, (Int.toNat_lt h.1).mpr h.2⟩,
        Int.toNat_of_nonneg h.1, rfl⟩
    next h => cases hf
  · intro h
    constructor
    · unfold zipChoiceCell
      rw [dif_neg h]
    · unfold splitChoiceCell
      rw [dif_neg h]

theorem colab_choice_guard_witness :
    (zipChoiceCell 2 ["A", "B", "C"] = some "B" ∧
     (∃ i : Fin (["A", "B", "C"] : List String).length,
        ((i : Nat) : Int) = 2 - 1 ∧ "B" = (["A", "B", "C"] : List String).get i)) ∧
    (¬ (0 ≤ (5 : Int) - 1 ∧ (5 : Int) - 1 < ((["A", "B", "C"] : List String).length : Int)) ∧
     zipChoiceCell 5 ["A", "B", "C"] = none ∧
     splitChoiceCell 5 ["A", "B", "C"] = none) :=
  ⟨⟨by decide, (colab_choice_guard 2 ["A", "B", "C"]).1 "B" (by decide)⟩,
   by decide,
   (colab_choice_guard 5 ["A", "B", "C"]).2.2 (by decide)⟩

theorem digitChar48_lt :
    ∀ a, a < 10 → ∀ b, b < 10 → (digitChar48 a < digitChar48 b ↔ a < b) := by
  decide

theorem padDigits_lt {w i j : Nat} (hi : i < 10 ^ w) (hj : j < 10 ^ w)
    (hij : i < j) :
    List.Lex (· < ·) ((padDigits w i).map digitChar48)
      ((padDigits w j).map digitChar48) := by
  induction w generalizing i j with
  | zero =>
    rw [pow_zero] at hi hj
    omega
  | succ w ih =>
    have hpos : 0 < 10 ^ w := Nat.pos_pow_of_pos _ (by decide)
    have hps : (10 : Nat) ^ (w + 1) = 10 ^ w * 10 := pow_succ 10 w
    rw [hps] at hi hj
    have hdi : i / 10 ^ w < 10 := Nat.div_lt_of_lt_mul hi
    have hdj : j / 10 ^ w < 10 := Nat.div_lt_of_lt_mul hj
    show List.Lex (· < ·)
      (digitChar48 (i / 10 ^ w) :: (padDigits w (i % 10 ^ w)).map digitChar48)
      (digitChar48 (j / 10 ^ w) :: (padDigits w (j % 10 ^ w)).map digitChar48)
    rcases Nat.lt_trichotomy (i / 10 ^ w) (j / 10 ^ w) with hlt | heq | hgt
    · exact List.Lex.rel ((digitChar48_lt _ hdi _ hdj).mpr hlt)
    · have d1 := Nat.div_add_mod i (10 ^ w)
      have d2 := Nat.div_add_mod j (10 ^ w)
      rw [heq] at d1
      have hmod : i % 10 ^ w < j % 10 ^ w := by omega
      rw [heq]
      exact List.Lex.cons (ih (Nat.mod_lt _ hpos) (Nat.mod_lt _ hpos) hmod)
    · exfalso
      have hle : i / 10 ^ w ≤ j / 10 ^ w := Nat.div_le_div_right (Nat.le_of_lt hij)
      omega

theorem zeroPadName_lt {w i j : Nat} (hi : i < 10 ^ w) (hj : j < 10 ^ w)
    (hij : i < j) : zeroPadName w i < zeroPadName w j := by
  rw [String.lt_iff_toList_lt]
  exact padDigits_lt hi hj hij

instance pageLeTotal : IsTotal Page (fun a b => a.index ≤ b.index) :=
  ⟨fun _ _ => Nat.le_total _ _⟩

instance pageLeTrans : IsTrans Page (fun a b => a.index ≤ b.index) :=
  ⟨fun _ _ _ => Nat.le_trans⟩

instance pageLtAntisymm : IsAntisymm Page (fun a b => a.index < b.index) :=
  ⟨fun _ _ h1 h2 => (Nat.lt_asymm h1 h2).elim⟩

theorem sortPages_perm (ps : List Page) : (sortPages ps).Perm ps :=
  List.perm_insertionSort _ _

theorem sortPages_sorted_le (ps : List Page) :
    (sortPages ps).Sorted (fun a b => a.index ≤ b.index) :=
  List.sorted_insertionSort _ _

theorem sortPages_sorted_strict {ps : List Page}
    (hnodup : (ps.map Page.index).Nodup) :
    (sortPages ps).Sorted (fun a b => a.index < b.index) := by
  have hle := sortPages_sorted_le ps
  have hnd : ((sortPages ps).map Page.index).Nodup :=
    ((List.Perm.map Page.index (sortPages_perm ps)).nodup_iff).mpr hnodup
  have hne : (sortPages ps).Pairwise (fun a b => a.index ≠ b.index) :=
    List.pairwise_map.mp hnd
  exact (hle.and hne).imp (fun h => Nat.lt_of_le_of_ne h.1 h.2)

theorem sortPages_perm_eq {ps qs : List Page} (hperm : qs.Perm ps)
    (hnodup : (ps.map Page.index).Nodup) : sortPages qs = sortPages ps := by
  have hq : (qs.map Page.index).Nodup := (hperm.map _).nodup_iff.mpr hnodup
  exact List.eq_of_perm_of_sorted
    ((sortPages_perm qs).trans (hperm.trans (sortPages_perm ps).symm))
    (sortPages_sorted_strict hq) (sortPages_sorted_strict hnodup)

theorem makeCBZ_names_sorted (title : String) (chapter : Dec) {w : Nat}
    {ps : List Page} (hnodup : (ps.map Page.index).Nodup)
    (hbound : ∀ p ∈ ps, p.index < 10 ^ w) :
    ((makeCBZ title chapter w ps).imageEntries.map Prod.fst).Sorted
      (fun a b : String => a < b) := by
  have hstrict := sortPages_sorted_strict hnodup
  have hmap : (makeCBZ title chapter w ps).imageEntries.map Prod.fst =
      (sortPages ps).map (fun p => zeroPadName w p.index) := by
    simp [makeCBZ, List.map_map]
  rw [hmap]
  apply List.pairwise_map.mpr
  refine List.Pairwise.imp_of_mem ?_ hstrict
  intro a b ha hb hab
  exact zeroPadName_lt (hbound a ((sortPages_perm ps).mem_iff.mp ha))
    (hbound b ((sortPages_perm ps).mem_iff.mp hb)) hab

/-- C8: for every completed chapter, assembly is a deterministic function
of the page set, independent of fetch completion order: the PDF places
pages strictly in ascending page-index order, the CBZ entries are the page
images renamed to a fixed-width zero-padded sequence, and alphabetical
order of entry names equals page-index order. -/
theorem assembly_deterministic_ordering :
    ∀ (title : String) (chapter : Dec) (w : Nat) (ps : List Page),
      (ps.map Page.index).Nodup →
      (∀ p ∈ ps, p.index < 10 ^ w) →
      ((sortPages ps).Sorted (fun a b => a.index < b.index) ∧
        assemblePDF ps = (sortPages ps).map Page.content) ∧
      (∀ qs, qs.Perm ps →
        sortPages qs = sortPages ps ∧
        assemblePDF qs = assemblePDF ps ∧
        makeCBZ title chapter w qs = makeCBZ title chapter w ps) ∧
      ((makeCBZ title chapter w ps).imageEntries =
        (sortPages ps).map (fun p => (zeroPadName w p.index, p.content)) ∧
       ((makeCBZ title chapter w ps).imageEntries.map Prod.fst).Sorted
         (fun a b : String => a < b)) := by
  intro title chapter w ps hnodup hbound
  refine ⟨⟨sortPages_sorted_strict hnodup, rfl⟩, ?_, rfl,
    makeCBZ_names_sorted title chapter hnodup hbound⟩
  intro qs hperm
  have hsort := sortPages_perm_eq hperm hnodup
  refine ⟨hsort, ?_, ?_⟩
  · unfold assemblePDF
    rw [hsort]
  · unfold makeCBZ
    rw [hsort, hperm.length_eq]

theorem assembly_deterministic_ordering_witness :
    (((([⟨1, [10]⟩, ⟨0, [20]⟩, ⟨2, [30]⟩] : List Page).map Page.index).Nodup ∧
      ∀ p ∈ ([⟨1, [10]⟩, ⟨0, [20]⟩, ⟨2, [30]⟩] : List Page), p.index < 10 ^ 2) ∧
     ([⟨2, [30]⟩, ⟨0, [20]⟩, ⟨1, [10]⟩] : List Page).Perm
       [⟨1, [10]⟩, ⟨0, [20]⟩, ⟨2, [30]⟩]) ∧
    (sortPages [⟨2, [30]⟩, ⟨0, [20]⟩, ⟨1, [10]⟩] =
        sortPages [⟨1, [10]⟩, ⟨0, [20]⟩, ⟨2, [30]⟩] ∧
      assemblePDF [⟨2, [30]⟩, ⟨0, [20]⟩, ⟨1, [10]⟩] =
        assemblePDF [⟨1, [10]⟩, ⟨0, [20]⟩, ⟨2, [30]⟩] ∧
      makeCBZ "t" (Dec.ofParts 1 0) 2 [⟨2, [30]⟩, ⟨0, [20]⟩, ⟨1, [10]⟩] =
        makeCBZ "t" (Dec.ofParts 1 0) 2 [⟨1, [10]⟩, ⟨0, [20]⟩, ⟨2, [30]⟩]) ∧
    assemblePDF [⟨1, [10]⟩, ⟨0, [20]⟩, ⟨2, [30]⟩] = [[20], [10], [30]] :=
  ⟨⟨⟨by decide, by decide⟩, by decide⟩,
   ((assembly_deterministic_ordering "t" (Dec.ofParts 1 0) 2
       [⟨1, [10]⟩, ⟨0, [20]⟩, ⟨2, [30]⟩] (by decide) (by decide)).2.1
     [⟨2, [30]⟩, ⟨0, [20]⟩, ⟨1, [10]⟩] (by decide)),
   by decide⟩
